import Mathlib

set_option maxRecDepth 1000000

attribute [local semireducible] Rat.add Rat.mul Rat.sub Rat.inv

/-!
# Bouncing balls: shallow embedding of the sequential backend

This file embeds the sequential simulation backend (`JSBackend` in
`js-backend.js`) of the bouncing-balls repository and proves the spec's
claims about it.  JavaScript numbers are modelled as exact rationals;
`Math.random()` is modelled as an oracle stream `rng : ℕ → ℚ` whose draws
are consumed in program order, one stream per tick.
-/

/-- A particle record, mirroring the JS ball object
`{x, y, vx, vy, radius, color, justSplit}`. -/
structure Ball where
  x : ℚ
  y : ℚ
  vx : ℚ
  vy : ℚ
  radius : ℚ
  color : ℕ
  justSplit : Bool
deriving DecidableEq

/-- The configuration held by the backend: canvas size, population cap
(`maxBalls`) and split ratio (`splitRatio`). -/
structure Config where
  width : ℚ
  height : ℚ
  maxBalls : ℕ
  splitRatio : ℚ
deriving DecidableEq

/-- `ball.x += ball.vx; ball.y += ball.vy` -/
def integrate (b : Ball) : Ball :=
  { b with x := b.x + b.vx, y := b.y + b.vy }

/-- The `// Bounce X` block of `JSBackend.update`: clamp to a crossed
vertical wall, force the sign of `vx` toward the interior, report `hitX`. -/
def bounceX (cfg : Config) (b : Ball) : Ball × Bool :=
  if b.x - b.radius < 0 then
    ({ b with x := b.radius, vx := |b.vx| }, true)
  else if b.x + b.radius > cfg.width then
    ({ b with x := cfg.width - b.radius, vx := -|b.vx| }, true)
  else
    (b, false)

/-- The `// Bounce Y` block of `JSBackend.update`. -/
def bounceY (cfg : Config) (b : Ball) : Ball × Bool :=
  if b.y - b.radius < 0 then
    ({ b with y := b.radius, vy := |b.vy| }, true)
  else if b.y + b.radius > cfg.height then
    ({ b with y := cfg.height - b.radius, vy := -|b.vy| }, true)
  else
    (b, false)

/-- Position integration followed by both bounce blocks; returns the
post-reflection ball together with the `hitX`/`hitY` flags. -/
def moveBounce (cfg : Config) (b : Ball) : Ball × Bool × Bool :=
  let b1 := integrate b
  let px := bounceX cfg b1
  let py := bounceY cfg px.1
  (py.1, px.2, py.2)

/-- Construction of the child ball inside the split branch: velocity is the
parent's post-reflection velocity times `speedFactor = 0.8 + random()*0.4`,
the color is `floor(random()*0xFFFFFF)`, and for each hit axis the child's
other-axis velocity component gets `(random()-0.5)*2.0` added.  `k` indexes
the next unconsumed draw of the tick's random stream; the consumed-draw
counter is returned. -/
def mkChild (rng : ℕ → ℚ) (k : ℕ) (hitX hitY : Bool) (parent : Ball) :
    Ball × ℕ :=
  let speedFactor := 4/5 + rng k * (2/5)
  let c : Ball :=
    { x := parent.x, y := parent.y,
      vx := parent.vx * speedFactor, vy := parent.vy * speedFactor,
      radius := parent.radius,
      color := (⌊rng (k+1) * 16777215⌋).toNat,
      justSplit := true }
  let r1 := if hitX then
      ({ c with vy := c.vy + (rng (k+2) - 1/2) * 2 }, k+3)
    else (c, k+2)
  if hitY then
    ({ r1.1 with vx := r1.1.vx + (rng r1.2 - 1/2) * 2 }, r1.2 + 1)
  else r1

/-- One loop iteration of `JSBackend.update` for a single ball: read and
clear the grace flag, integrate, bounce, and run the split logic.  `total`
is `this.balls.length + newBalls.length` at the moment the cap is checked;
`k` is the random-draw counter.  Returns the written-back ball, the child
pushed onto `newBalls` (if any), and the new draw counter. -/
def processBall (cfg : Config) (rng : ℕ → ℚ) (k : ℕ) (total : ℕ)
    (b0 : Ball) : Ball × Option Ball × ℕ :=
  let wasJustSplit := b0.justSplit
  let m := moveBounce cfg { b0 with justSplit := false }
  let b3 := m.1
  let hitX := m.2.1
  let hitY := m.2.2
  if (hitX || hitY) && !wasJustSplit then
    let newRadius := b3.radius * cfg.splitRatio
    if 1 ≤ newRadius ∧ total < cfg.maxBalls then
      let parent := { b3 with radius := newRadius, justSplit := true }
      let ck := mkChild rng k hitX hitY parent
      (parent, some ck.1, ck.2)
    else
      ({ b3 with radius := max b3.radius 1 }, none, k)
  else
    (b3, none, k)

/-- The loop of `JSBackend.update` over the balls present at call start.
`n` is the ball count sampled at call start, `numNew` the number of
children accumulated in `newBalls` so far, `k` the random-draw counter.
Returns the updated original balls and the accumulated children. -/
def updateGo (cfg : Config) (rng : ℕ → ℚ) (n : ℕ) :
    List Ball → ℕ → ℕ → List Ball × List Ball
  | [], _, _ => ([], [])
  | b :: rest, numNew, k =>
    let r := processBall cfg rng k (n + numNew) b
    match r.2.1 with
    | none =>
      let u := updateGo cfg rng n rest numNew r.2.2
      (r.1 :: u.1, u.2)
    | some c =>
      let u := updateGo cfg rng n rest (numNew + 1) r.2.2
      (r.1 :: u.1, c :: u.2)

/-- `JSBackend.update`: process every ball present at call start, then
`this.balls.push(...newBalls)`. -/
def update (cfg : Config) (rng : ℕ → ℚ) (balls : List Ball) : List Ball :=
  let r := updateGo cfg rng balls.length balls 0 0
  r.1 ++ r.2

/-- The seed ball pushed by the `JSBackend` constructor: arena center,
velocity `(8, -6)`, radius `60`, color `0xFF4444`, grace flag unset. -/
def initBall (cfg : Config) : Ball :=
  { x := cfg.width / 2, y := cfg.height / 2, vx := 8, vy := -6,
    radius := 60, color := 0xFF4444, justSplit := false }

/-- The ball list right after construction. -/
def initBalls (cfg : Config) : List Ball := [initBall cfg]

/-- `t` ticks of the simulation from the seeded initial state; tick `u`
consumes random draws from the stream `trace u`. -/
def run (cfg : Config) (trace : ℕ → ℕ → ℚ) : ℕ → List Ball
  | 0 => initBalls cfg
  | t + 1 => update cfg (trace t) (run cfg trace t)

/-- `JSBackend.getBallCount`. -/
def getBallCount (balls : List Ball) : ℕ := balls.length

/-- The `JSBackend` constructor: it stores the configuration and pushes the
single seed ball, performing no validation of the arguments. -/
def jsConstructor (cfg : Config) : List Ball := initBalls cfg

/-!
## Renderer (`JSBackend.render`)

Canvas operations are modelled as an emitted command list.  Setting
`ctx.fillStyle` to an `rgb(r,g,b)` string is one command; `ctx.fillRect`
and the `beginPath`/`arc`/`fill`/`closePath` circle idiom are one command
each.
-/

/-- One host-side canvas operation performed by `JSBackend.render`. -/
inductive DrawCmd where
  | fillStyle (r g b : ℕ)
  | fillRect (x y w h : ℚ)
  | fillCircle (x y radius : ℚ)
deriving DecidableEq

/-- `(color >> 16) & 0xFF` -/
def redOf (c : ℕ) : ℕ := (c >>> 16) % 256

/-- `(color >> 8) & 0xFF` -/
def greenOf (c : ℕ) : ℕ := (c >>> 8) % 256

/-- `color & 0xFF` -/
def blueOf (c : ℕ) : ℕ := c % 256

/-- `ctx.fillStyle = rgb(r,g,b)` for a packed color. -/
def styleOf (c : ℕ) : DrawCmd := .fillStyle (redOf c) (greenOf c) (blueOf c)

/-- `colorGroups.get(ball.color).push(ball)`, creating the entry first when
absent: JS `Map` keeps keys in insertion order and each group keeps its
balls in insertion order. -/
def insertGroup (b : Ball) : List (ℕ × List Ball) → List (ℕ × List Ball)
  | [] => [(b.color, [b])]
  | (c, g) :: rest =>
    if c = b.color then (c, g ++ [b]) :: rest
    else (c, g) :: insertGroup b rest

/-- The `colorGroups` map built by the fast rendering mode, as an
association list in key-insertion order. -/
def groupByColor (balls : List Ball) : List (ℕ × List Ball) :=
  balls.foldl (fun acc b => insertGroup b acc) []

/-- The fast-mode body: one `fillStyle` change per distinct color, then one
bounding-square `fillRect` per ball of that color. -/
def fastCmds (balls : List Ball) : List DrawCmd :=
  (groupByColor balls).flatMap fun g =>
    styleOf g.1 ::
      g.2.map fun b =>
        .fillRect (b.x - b.radius) (b.y - b.radius) (b.radius * 2) (b.radius * 2)

/-- The slow-mode body: per ball, a `fillStyle` change and a filled circle
at its own position and radius. -/
def slowCmds (balls : List Ball) : List DrawCmd :=
  balls.flatMap fun b => [styleOf b.color, .fillCircle b.x b.y b.radius]

/-- `JSBackend.render`: clear the canvas, then draw with the strategy
selected by `this.balls.length > 10000`. -/
def render (cfg : Config) (balls : List Ball) : List DrawCmd :=
  [.fillStyle 26 26 26, .fillRect 0 0 cfg.width cfg.height] ++
    (if balls.length > 10000 then fastCmds balls else slowCmds balls)

/-!
## Scenario constants and auxiliary predicates
-/

/-- A degenerate random stream: every draw is `1/2`. -/
def rngHalf : ℕ → ℚ := fun _ => 1/2

/-- The per-tick random trace in which every draw of every tick is `1/2`. -/
def traceHalf : ℕ → ℕ → ℚ := fun _ _ => 1/2

/-- Scenario A of the spec: arena 800×600, cap 10, split ratio 0.8. -/
def cfgScenarioA : Config :=
  { width := 800, height := 600, maxBalls := 10, splitRatio := 4/5 }

/-- A ball lies within the arena: its disc is inside the canvas rectangle. -/
def inArena (cfg : Config) (b : Ball) : Prop :=
  b.radius ≤ b.x ∧ b.x ≤ cfg.width - b.radius ∧
    b.radius ≤ b.y ∧ b.y ≤ cfg.height - b.radius

instance (cfg : Config) (b : Ball) : Decidable (inArena cfg b) := by
  unfold inArena; infer_instance

/-- A catch-all ball used as the default of positional lookups. -/
def ballDefault : Ball :=
  { x := 0, y := 0, vx := 0, vy := 0, radius := 0, color := 0, justSplit := false }

/-- An invalid configuration: split ratio 2 and cap 0, violating the
validity conditions the spec states for construction. -/
def cfgInvalid : Config :=
  { width := 800, height := 600, maxBalls := 0, splitRatio := 2 }

/-- Arena and state for the first containment counterexample: a ball of
radius 1/2 tangent to the left wall and moving into it. -/
def cfgCtr : Config :=
  { width := 600, height := 600, maxBalls := 10, splitRatio := 4/5 }

/-- The single ball of the first containment counterexample. -/
def ballCtr : Ball :=
  { x := 1/2, y := 300, vx := -1, vy := 0, radius := 1/2, color := 0,
    justSplit := false }

/-- Arena for the second containment counterexample: split ratio 2, so a
split grows the radius. -/
def cfgCtr2 : Config :=
  { width := 600, height := 600, maxBalls := 10, splitRatio := 2 }

/-- The single ball of the second containment counterexample. -/
def ballCtr2 : Ball :=
  { x := 10, y := 300, vx := -20, vy := 0, radius := 8, color := 0,
    justSplit := false }

/-- A small arena used by concrete witnesses. -/
def cfgSmall : Config :=
  { width := 100, height := 100, maxBalls := 10, splitRatio := 4/5 }

/-- A ball about to hit the right wall of `cfgSmall`. -/
def ballHit : Ball :=
  { x := 90, y := 50, vx := 10, vy := 0, radius := 10, color := 0,
    justSplit := false }

/-- `ballHit` after integration and reflection off the right wall. -/
def ballHitPost : Ball :=
  { x := 90, y := 50, vx := -10, vy := 0, radius := 10, color := 0,
    justSplit := false }

/-- A ball about to hit the top-left corner of `cfgSmall`. -/
def ballCorner : Ball :=
  { x := 5, y := 5, vx := -10, vy := -10, radius := 4, color := 0,
    justSplit := false }

/-- `ballCorner` after integration and reflection off both walls. -/
def ballCornerPost : Ball :=
  { x := 4, y := 4, vx := 10, vy := 10, radius := 4, color := 0,
    justSplit := false }

/-- A ball at rest well inside `cfgCtr`. -/
def ballContained : Ball :=
  { x := 300, y := 300, vx := 0, vy := 0, radius := 2, color := 0,
    justSplit := false }

/-- A population large enough to trigger the fast rendering mode. -/
def ballsBig : List Ball := List.replicate 10001 ballHit

/-!
## Per-ball lemmas
-/

theorem bounceX_radius (cfg : Config) (b : Ball) :
    (bounceX cfg b).1.radius = b.radius := by
  simp only [bounceX]; split_ifs <;> rfl

theorem bounceY_radius (cfg : Config) (b : Ball) :
    (bounceY cfg b).1.radius = b.radius := by
  simp only [bounceY]; split_ifs <;> rfl

theorem moveBounce_radius (cfg : Config) (b : Ball) :
    (moveBounce cfg b).1.radius = b.radius := by
  simp only [moveBounce, bounceX, bounceY, integrate]
  split_ifs <;> rfl

theorem moveBounce_justSplit (cfg : Config) (b : Ball) :
    (moveBounce cfg b).1.justSplit = b.justSplit := by
  simp only [moveBounce, bounceX, bounceY, integrate]
  split_ifs <;> rfl

theorem mkChild_radius (rng : ℕ → ℚ) (k : ℕ) (hX hY : Bool) (p : Ball) :
    (mkChild rng k hX hY p).1.radius = p.radius := by
  simp only [mkChild]; split_ifs <;> rfl

theorem mkChild_justSplit (rng : ℕ → ℚ) (k : ℕ) (hX hY : Bool) (p : Ball) :
    (mkChild rng k hX hY p).1.justSplit = true := by
  simp only [mkChild]; split_ifs <;> rfl

theorem mkChild_x (rng : ℕ → ℚ) (k : ℕ) (hX hY : Bool) (p : Ball) :
    (mkChild rng k hX hY p).1.x = p.x := by
  simp only [mkChild]; split_ifs <;> rfl

theorem mkChild_y (rng : ℕ → ℚ) (k : ℕ) (hX hY : Bool) (p : Ball) :
    (mkChild rng k hX hY p).1.y = p.y := by
  simp only [mkChild]; split_ifs <;> rfl

/-- A child is created only when the cap check `total < maxBalls` passed. -/
theorem processBall_child_total (cfg : Config) (rng : ℕ → ℚ) (k total : ℕ)
    (b c : Ball) (h : (processBall cfg rng k total b).2.1 = some c) :
    total < cfg.maxBalls := by
  simp only [processBall] at h
  split at h
  · split at h
    · next hcond => exact hcond.2
    · simp at h
  · simp at h

/-- A ball whose grace flag is set at the start of its processing produces
no child during that processing. -/
theorem processBall_grace (cfg : Config) (rng : ℕ → ℚ) (k total : ℕ)
    (b : Ball) (hb : b.justSplit = true) :
    (processBall cfg rng k total b).2.1 = none := by
  simp only [processBall, hb]
  simp

/-- If no child is produced, the written-back ball's grace flag is clear. -/
theorem processBall_none_flag (cfg : Config) (rng : ℕ → ℚ) (k total : ℕ)
    (b : Ball) (h : (processBall cfg rng k total b).2.1 = none) :
    (processBall cfg rng k total b).1.justSplit = false := by
  have hm : (moveBounce cfg { b with justSplit := false }).1.justSplit = false := by
    rw [moveBounce_justSplit]
  simp only [processBall] at h ⊢
  split at h
  · split at h
    · simp at h
    · next h1 h2 =>
      simp only [h1, h2]
      simpa using hm
  · next h1 =>
    simp only [h1]
    simpa using hm

/-- If a child is produced, both the written-back parent and the child
carry the grace flag. -/
theorem processBall_some_flag (cfg : Config) (rng : ℕ → ℚ) (k total : ℕ)
    (b c : Ball) (h : (processBall cfg rng k total b).2.1 = some c) :
    (processBall cfg rng k total b).1.justSplit = true ∧ c.justSplit = true := by
  simp only [processBall] at h ⊢
  split at h
  · split at h
    · next h1 h2 =>
      simp only [h1, h2]
      simp only [Option.some.injEq] at h
      subst h
      exact ⟨rfl, mkChild_justSplit ..⟩
    · simp at h
  · simp at h

/-- The per-ball step preserves the radius floor. -/
theorem processBall_radius_ge (cfg : Config) (rng : ℕ → ℚ) (k total : ℕ)
    (b : Ball) (hb : 1 ≤ b.radius) :
    1 ≤ (processBall cfg rng k total b).1.radius ∧
      ∀ c, (processBall cfg rng k total b).2.1 = some c → 1 ≤ c.radius := by
  have hm : (moveBounce cfg { b with justSplit := false }).1.radius = b.radius :=
    moveBounce_radius ..
  simp only [processBall]
  split
  · split
    · next h1 h2 =>
      constructor
      · exact h2.1
      · intro c hc
        simp only [Option.some.injEq] at hc
        subst hc
        rw [mkChild_radius]
        exact h2.1
    · refine ⟨le_max_right _ _, by simp⟩
  · refine ⟨?_, by simp⟩
    rw [hm]; exact hb

/-- The written-back ball, the presence of a child, and the child's
position and radius are independent of the random stream and of the
draw counter. -/
theorem processBall_rng (cfg : Config) (rng rng' : ℕ → ℚ) (k k' total : ℕ)
    (b : Ball) :
    (processBall cfg rng k total b).1 = (processBall cfg rng' k' total b).1 ∧
      Option.map Ball.radius (processBall cfg rng k total b).2.1 =
        Option.map Ball.radius (processBall cfg rng' k' total b).2.1 := by
  simp only [processBall]
  split
  · split
    · simp [mkChild_radius]
    · simp
  · simp

theorem bounceX_y (cfg : Config) (b : Ball) : (bounceX cfg b).1.y = b.y := by
  simp only [bounceX]; split_ifs <;> rfl

theorem bounceY_x (cfg : Config) (b : Ball) : (bounceY cfg b).1.x = b.x := by
  simp only [bounceY]; split_ifs <;> rfl

/-- After the X bounce block the ball's disc lies within the horizontal
extent of the arena, provided its diameter fits the arena width. -/
theorem bounceX_contain (cfg : Config) (b : Ball)
    (hw : b.radius + b.radius ≤ cfg.width) :
    (bounceX cfg b).1.radius ≤ (bounceX cfg b).1.x ∧
      (bounceX cfg b).1.x ≤ cfg.width - (bounceX cfg b).1.radius := by
  simp only [bounceX]
  split_ifs with h1 h2
  · exact ⟨le_refl _, by dsimp only; linarith⟩
  · exact ⟨by dsimp only; linarith, by dsimp only; linarith⟩
  · rw [not_lt] at h1 h2
    exact ⟨by dsimp only; linarith, by dsimp only; linarith⟩

/-- After the Y bounce block the ball's disc lies within the vertical
extent of the arena, provided its diameter fits the arena height. -/
theorem bounceY_contain (cfg : Config) (b : Ball)
    (hh : b.radius + b.radius ≤ cfg.height) :
    (bounceY cfg b).1.radius ≤ (bounceY cfg b).1.y ∧
      (bounceY cfg b).1.y ≤ cfg.height - (bounceY cfg b).1.radius := by
  simp only [bounceY]
  split_ifs with h1 h2
  · exact ⟨le_refl _, by dsimp only; linarith⟩
  · exact ⟨by dsimp only; linarith, by dsimp only; linarith⟩
  · rw [not_lt] at h1 h2
    exact ⟨by dsimp only; linarith, by dsimp only; linarith⟩

/-- Whatever the velocity, after integration and the two bounce blocks a
ball whose diameter fits the arena lies within the arena. -/
theorem moveBounce_inArena (cfg : Config) (b : Ball)
    (hw : b.radius + b.radius ≤ cfg.width)
    (hh : b.radius + b.radius ≤ cfg.height) :
    inArena cfg (moveBounce cfg b).1 := by
  have hir : (integrate b).radius = b.radius := rfl
  have hxr := bounceX_radius cfg (integrate b)
  have hcx := bounceX_contain cfg (integrate b) (by rw [hir]; exact hw)
  have hcy := bounceY_contain cfg (bounceX cfg (integrate b)).1
    (by rw [hxr, hir]; exact hh)
  have hyx := bounceY_x cfg (bounceX cfg (integrate b)).1
  have hyr := bounceY_radius cfg (bounceX cfg (integrate b)).1
  show inArena cfg (bounceY cfg (bounceX cfg (integrate b)).1).1
  refine ⟨?_, ?_, hcy.1, hcy.2⟩
  · rw [hyx, hyr]; exact hcx.1
  · rw [hyx, hyr]; exact hcx.2

/-- The per-ball step keeps a contained ball with radius at least 1
contained (and its radius at least 1), and any child it produces is
likewise contained with radius at least 1, provided the split ratio is at
most 1. -/
theorem processBall_inArena (cfg : Config) (rng : ℕ → ℚ) (k total : ℕ)
    (b : Ball) (hs : cfg.splitRatio ≤ 1)
    (hb : inArena cfg b ∧ 1 ≤ b.radius) :
    (inArena cfg (processBall cfg rng k total b).1 ∧
        1 ≤ (processBall cfg rng k total b).1.radius) ∧
      ∀ c, (processBall cfg rng k total b).2.1 = some c →
        inArena cfg c ∧ 1 ≤ c.radius := by
  obtain ⟨hA, hr⟩ := hb
  have hw : b.radius + b.radius ≤ cfg.width := by
    obtain ⟨a1, a2, a3, a4⟩ := hA; linarith
  have hh : b.radius + b.radius ≤ cfg.height := by
    obtain ⟨a1, a2, a3, a4⟩ := hA; linarith
  have hm : inArena cfg (moveBounce cfg { b with justSplit := false }).1 :=
    moveBounce_inArena cfg _ hw hh
  have hmr : (moveBounce cfg { b with justSplit := false }).1.radius = b.radius :=
    moveBounce_radius ..
  simp only [processBall]
  split
  · split
    · next h1 h2 =>
      have hge0 : (0:ℚ) ≤ (moveBounce cfg { b with justSplit := false }).1.radius := by
        rw [hmr]; linarith
      have hshrink :
          (moveBounce cfg { b with justSplit := false }).1.radius * cfg.splitRatio ≤
            (moveBounce cfg { b with justSplit := false }).1.radius :=
        mul_le_of_le_one_right hge0 hs
      have hparent :
          inArena cfg { (moveBounce cfg { b with justSplit := false }).1 with
            radius := (moveBounce cfg { b with justSplit := false }).1.radius * cfg.splitRatio,
            justSplit := true } := by
        obtain ⟨a1, a2, a3, a4⟩ := hm
        exact ⟨by dsimp only; linarith, by dsimp only; linarith,
               by dsimp only; linarith, by dsimp only; linarith⟩
      refine ⟨⟨hparent, h2.1⟩, ?_⟩
      intro c hc
      simp only [Option.some.injEq] at hc
      subst hc
      constructor
      · obtain ⟨a1, a2, a3, a4⟩ := hparent
        refine ⟨?_, ?_, ?_, ?_⟩ <;>
          rw [mkChild_radius] <;>
          first
            | (rw [mkChild_x]; assumption)
            | (rw [mkChild_y]; assumption)
      · rw [mkChild_radius]; exact h2.1
    · next h1 h2 =>
      have hmax : max (moveBounce cfg { b with justSplit := false }).1.radius 1 =
          (moveBounce cfg { b with justSplit := false }).1.radius :=
        max_eq_left (by rw [hmr]; exact hr)
      refine ⟨⟨?_, ?_⟩, by simp⟩
      · obtain ⟨a1, a2, a3, a4⟩ := hm
        refine ⟨?_, ?_, ?_, ?_⟩ <;> dsimp only <;> rw [hmax] <;> assumption
      · dsimp only; rw [hmax, hmr]; exact hr
  · refine ⟨⟨hm, ?_⟩, by simp⟩
    rw [hmr]; exact hr

/-!
## Loop-level lemmas
-/

/-- The loop writes back exactly the balls present at call start. -/
theorem updateGo_fst_length (cfg : Config) (rng : ℕ → ℚ) (n : ℕ) :
    ∀ (l : List Ball) (numNew k : ℕ),
      (updateGo cfg rng n l numNew k).1.length = l.length := by
  intro l
  induction l with
  | nil => intro numNew k; rfl
  | cons b rest ih =>
    intro numNew k
    simp only [updateGo]
    cases hc : (processBall cfg rng k (n + numNew) b).2.1 with
    | none => simp [hc, ih]
    | some c => simp [hc, ih]

/-- While the running total stays at or below the cap, the loop never
pushes it above the cap. -/
theorem updateGo_len_le (cfg : Config) (rng : ℕ → ℚ) (n : ℕ) :
    ∀ (l : List Ball) (numNew k : ℕ), n + numNew ≤ cfg.maxBalls →
      n + numNew + (updateGo cfg rng n l numNew k).2.length ≤ cfg.maxBalls := by
  intro l
  induction l with
  | nil => intro numNew k h; simpa using h
  | cons b rest ih =>
    intro numNew k h
    simp only [updateGo]
    cases hc : (processBall cfg rng k (n + numNew) b).2.1 with
    | none => simpa using ih numNew _ h
    | some c =>
      have hlt : n + numNew < cfg.maxBalls :=
        processBall_child_total cfg rng k (n + numNew) b c hc
      have := ih (numNew + 1) ((processBall cfg rng k (n + numNew) b).2.2) (by omega)
      simp only [List.length_cons]
      omega

/-- Once the running total has reached the cap, the loop creates no child
at all. -/
theorem updateGo_sat (cfg : Config) (rng : ℕ → ℚ) (n : ℕ) :
    ∀ (l : List Ball) (numNew k : ℕ), cfg.maxBalls ≤ n + numNew →
      (updateGo cfg rng n l numNew k).2 = [] := by
  intro l
  induction l with
  | nil => intro numNew k _; rfl
  | cons b rest ih =>
    intro numNew k h
    simp only [updateGo]
    cases hc : (processBall cfg rng k (n + numNew) b).2.1 with
    | none => simpa using ih numNew _ h
    | some c =>
      have := processBall_child_total cfg rng k (n + numNew) b c hc
      omega

/-- Propagation of a per-ball invariant through the loop. -/
theorem updateGo_preserve (cfg : Config) (rng : ℕ → ℚ) (n : ℕ)
    (P : Ball → Prop)
    (hp : ∀ k total b, P b → P (processBall cfg rng k total b).1 ∧
        ∀ c, (processBall cfg rng k total b).2.1 = some c → P c) :
    ∀ (l : List Ball) (numNew k : ℕ), (∀ b ∈ l, P b) →
      (∀ b ∈ (updateGo cfg rng n l numNew k).1, P b) ∧
        ∀ b ∈ (updateGo cfg rng n l numNew k).2, P b := by
  intro l
  induction l with
  | nil => intro numNew k _; simp [updateGo]
  | cons b rest ih =>
    intro numNew k hl
    have hb : P b := hl b (List.mem_cons_self ..)
    have hrest : ∀ x ∈ rest, P x := fun x hx => hl x (List.mem_cons_of_mem _ hx)
    have hpb := hp k (n + numNew) b hb
    simp only [updateGo]
    cases hc : (processBall cfg rng k (n + numNew) b).2.1 with
    | none =>
      have := ih numNew ((processBall cfg rng k (n + numNew) b).2.2) hrest
      constructor
      · intro x hx
        rcases List.mem_cons.mp hx with h | h
        · rw [h]; exact hpb.1
        · exact this.1 x h
      · exact this.2
    | some c =>
      have := ih (numNew + 1) ((processBall cfg rng k (n + numNew) b).2.2) hrest
      constructor
      · intro x hx
        rcases List.mem_cons.mp hx with h | h
        · rw [h]; exact hpb.1
        · exact this.1 x h
      · intro x hx
        rcases List.mem_cons.mp hx with h | h
        · rw [h]; exact hpb.2 c hc
        · exact this.2 x h

/-- The written-back balls, the number of children, and the children's
radii do not depend on the random stream or the draw counter. -/
theorem updateGo_rng (cfg : Config) (rng rng' : ℕ → ℚ) (n : ℕ) :
    ∀ (l : List Ball) (numNew k k' : ℕ),
      (updateGo cfg rng n l numNew k).1 = (updateGo cfg rng' n l numNew k').1 ∧
        (updateGo cfg rng n l numNew k).2.map Ball.radius =
          (updateGo cfg rng' n l numNew k').2.map Ball.radius := by
  intro l
  induction l with
  | nil => intro numNew k k'; exact ⟨rfl, rfl⟩
  | cons b rest ih =>
    intro numNew k k'
    have hpb := processBall_rng cfg rng rng' k k' (n + numNew) b
    simp only [updateGo]
    cases hc : (processBall cfg rng k (n + numNew) b).2.1 with
    | none =>
      have hc' : (processBall cfg rng' k' (n + numNew) b).2.1 = none := by
        have := hpb.2
        rw [hc] at this
        exact Option.map_eq_none'.mp this.symm
      rw [hc']
      have := ih numNew ((processBall cfg rng k (n + numNew) b).2.2)
        ((processBall cfg rng' k' (n + numNew) b).2.2)
      exact ⟨by rw [hpb.1, this.1], this.2⟩
    | some c =>
      have hc' : ∃ c', (processBall cfg rng' k' (n + numNew) b).2.1 = some c' ∧
          c.radius = c'.radius := by
        have := hpb.2
        rw [hc] at this
        cases hcc : (processBall cfg rng' k' (n + numNew) b).2.1 with
        | none => rw [hcc] at this; simp at this
        | some c' =>
          rw [hcc] at this
          simp only [Option.map_some', Option.some.injEq] at this
          exact ⟨c', rfl, this⟩
      obtain ⟨c', hcc, hrad⟩ := hc'
      rw [hcc]
      have := ih (numNew + 1) ((processBall cfg rng k (n + numNew) b).2.2)
        ((processBall cfg rng' k' (n + numNew) b).2.2)
      refine ⟨by rw [hpb.1, this.1], ?_⟩
      simp only [List.map_cons]
      rw [hrad, this.2]

/-- Structure of the loop output: the written-back list matches the input
index-for-index through `processBall`, and every accumulated child is the
child output of the processing of some input ball. -/
theorem updateGo_struct (cfg : Config) (rng : ℕ → ℚ) (n : ℕ) :
    ∀ (l : List Ball) (numNew k : ℕ),
      (∀ i, i < l.length →
        ∃ k2 t2, (updateGo cfg rng n l numNew k).1.getD i ballDefault =
          (processBall cfg rng k2 t2 (l.getD i ballDefault)).1) ∧
      ∀ c ∈ (updateGo cfg rng n l numNew k).2,
        ∃ i k2 t2, i < l.length ∧
          (processBall cfg rng k2 t2 (l.getD i ballDefault)).2.1 = some c := by
  intro l
  induction l with
  | nil => intro numNew k; simp [updateGo]
  | cons b rest ih =>
    intro numNew k
    simp only [updateGo]
    cases hc : (processBall cfg rng k (n + numNew) b).2.1 with
    | none =>
      have := ih numNew ((processBall cfg rng k (n + numNew) b).2.2)
      constructor
      · intro i hi
        cases i with
        | zero => exact ⟨k, n + numNew, rfl⟩
        | succ j =>
          simp only [List.getD_cons_succ]
          exact this.1 j (by simpa using hi)
      · intro c hcm
        obtain ⟨i, k2, t2, hi, hsome⟩ := this.2 c hcm
        exact ⟨i + 1, k2, t2, by simpa using hi, by simpa using hsome⟩
    | some c0 =>
      have := ih (numNew + 1) ((processBall cfg rng k (n + numNew) b).2.2)
      constructor
      · intro i hi
        cases i with
        | zero => exact ⟨k, n + numNew, rfl⟩
        | succ j =>
          simp only [List.getD_cons_succ]
          exact this.1 j (by simpa using hi)
      · intro c hcm
        rcases List.mem_cons.mp hcm with h | h
        · exact ⟨0, k, n + numNew, by simp, by rw [h]; simpa using hc⟩
        · obtain ⟨i, k2, t2, hi, hsome⟩ := this.2 c h
          exact ⟨i + 1, k2, t2, by simpa using hi, by simpa using hsome⟩

/-!
## Update-level lemmas
-/

/-- A tick never removes balls: the population count is non-decreasing. -/
theorem length_le_update (cfg : Config) (rng : ℕ → ℚ) (s : List Ball) :
    s.length ≤ (update cfg rng s).length := by
  simp only [update, List.length_append, updateGo_fst_length]
  omega

/-- A tick keeps the population at or below the cap. -/
theorem update_length_le (cfg : Config) (rng : ℕ → ℚ) (s : List Ball)
    (h : s.length ≤ cfg.maxBalls) :
    (update cfg rng s).length ≤ cfg.maxBalls := by
  have := updateGo_len_le cfg rng s.length s 0 0 (by omega)
  simp only [update, List.length_append, updateGo_fst_length]
  omega

/-- At the cap, a tick adds no ball. -/
theorem update_sat (cfg : Config) (rng : ℕ → ℚ) (s : List Ball)
    (h : cfg.maxBalls ≤ s.length) :
    (update cfg rng s).length = s.length := by
  have h2 := updateGo_sat cfg rng s.length s 0 0 (by omega)
  simp only [update, List.length_append, updateGo_fst_length, h2]
  simp

/-- Propagation of a per-ball invariant through one tick. -/
theorem update_preserve (cfg : Config) (rng : ℕ → ℚ) (s : List Ball)
    (P : Ball → Prop)
    (hp : ∀ k total b, P b → P (processBall cfg rng k total b).1 ∧
        ∀ c, (processBall cfg rng k total b).2.1 = some c → P c)
    (hs : ∀ b ∈ s, P b) :
    ∀ b ∈ update cfg rng s, P b := by
  intro b hb
  have := updateGo_preserve cfg rng s.length P hp s 0 0 hs
  simp only [update] at hb
  rcases List.mem_append.mp hb with h | h
  · exact this.1 b h
  · exact this.2 b h

/-- The radii present after a tick do not depend on the random stream. -/
theorem update_map_radius (cfg : Config) (rng rng' : ℕ → ℚ) (s : List Ball) :
    (update cfg rng s).map Ball.radius = (update cfg rng' s).map Ball.radius := by
  have h := updateGo_rng cfg rng rng' s.length s 0 0 0
  simp only [update, List.map_append]
  rw [h.1, h.2]

/-- A tick that adds no ball under one random stream is identical under
every random stream. -/
theorem update_rng_eq (cfg : Config) (rng rng' : ℕ → ℚ) (s : List Ball)
    (h : (update cfg rng' s).length = s.length) :
    update cfg rng s = update cfg rng' s := by
  have hg := updateGo_rng cfg rng rng' s.length s 0 0 0
  have hlen' : (updateGo cfg rng' s.length s 0 0).2.length = 0 := by
    have := updateGo_fst_length cfg rng' s.length s 0 0
    simp only [update, List.length_append, this] at h
    omega
  have hnil' : (updateGo cfg rng' s.length s 0 0).2 = [] :=
    List.eq_nil_of_length_eq_zero hlen'
  have hnil : (updateGo cfg rng s.length s 0 0).2 = [] := by
    have := hg.2
    rw [hnil'] at this
    simpa using this
  simp only [update, hnil, hnil', hg.1]

/-!
## Run-level lemmas and Scenario A facts
-/

/-- Starting from the seeded state, the population never exceeds a cap of
at least 1. -/
theorem run_length_le (cfg : Config) (trace : ℕ → ℕ → ℚ)
    (hcap : 1 ≤ cfg.maxBalls) : ∀ t, (run cfg trace t).length ≤ cfg.maxBalls := by
  intro t
  induction t with
  | zero => simpa [run, initBalls] using hcap
  | succ t ih => exact update_length_le cfg (trace t) _ ih

/-- Under the all-halves random trace, Scenario A has exactly one ball at
every tick before tick 41. -/
theorem scenA_one : ∀ t, t < 41 → (run cfgScenarioA traceHalf t).length = 1 := by
  decide

/-- Under the all-halves random trace, Scenario A has exactly two balls of
radius 48 at tick 41. -/
theorem scenA_two : (run cfgScenarioA traceHalf 41).map Ball.radius = [48, 48] := by
  decide

/-- Under the all-halves random trace, Scenario A reaches the cap of 10 at
tick 136. -/
theorem scenA_ten : (run cfgScenarioA traceHalf 136).length = 10 := by
  decide

/-- Before the first wall impact no random draw is consumed, so the first
41 ticks of Scenario A agree with the all-halves trace for every trace. -/
theorem scenA_rng_eq (trace : ℕ → ℕ → ℚ) :
    ∀ t, t ≤ 40 → run cfgScenarioA trace t = run cfgScenarioA traceHalf t := by
  intro t
  induction t with
  | zero => intro _; rfl
  | succ t ih =>
    intro ht
    have h1 : (run cfgScenarioA traceHalf t).length = 1 := scenA_one t (by omega)
    have h2 : (run cfgScenarioA traceHalf (t + 1)).length = 1 :=
      scenA_one (t + 1) (by omega)
    show update cfgScenarioA (trace t) (run cfgScenarioA trace t) =
      update cfgScenarioA (traceHalf t) (run cfgScenarioA traceHalf t)
    rw [ih (by omega)]
    apply update_rng_eq
    have he : update cfgScenarioA (traceHalf t) (run cfgScenarioA traceHalf t) =
        run cfgScenarioA traceHalf (t + 1) := rfl
    rw [he, h2, h1]

/-- Once Scenario A has reached the cap it stays there forever. -/
theorem scenA_stay : ∀ d, (run cfgScenarioA traceHalf (136 + d)).length = 10 := by
  intro d
  induction d with
  | zero => exact scenA_ten
  | succ d ih =>
    have he : run cfgScenarioA traceHalf (136 + (d + 1)) =
        update cfgScenarioA (traceHalf (136 + d)) (run cfgScenarioA traceHalf (136 + d)) := rfl
    rw [he, update_sat]
    · exact ih
    · rw [ih]
      decide

/-!
## Color-grouping lemmas for the renderer
-/

/-- Inserting a ball into the color map preserves group homogeneity. -/
theorem insertGroup_hom (b : Ball) :
    ∀ G : List (ℕ × List Ball), (∀ g ∈ G, ∀ x ∈ g.2, x.color = g.1) →
      ∀ g ∈ insertGroup b G, ∀ x ∈ g.2, x.color = g.1 := by
  intro G
  induction G with
  | nil =>
    intro _ g hg x hx
    simp only [insertGroup, List.mem_singleton] at hg
    subst hg
    simp only [List.mem_singleton] at hx
    subst hx
    rfl
  | cons p rest ih =>
    intro hG g hg x hx
    obtain ⟨c, gr⟩ := p
    simp only [insertGroup] at hg
    by_cases hc : c = b.color
    · rw [if_pos hc] at hg
      rcases List.mem_cons.mp hg with h | h
      · subst h
        rcases List.mem_append.mp hx with h2 | h2
        · exact hG (c, gr) (List.mem_cons_self ..) x h2
        · simp only [List.mem_singleton] at h2
          subst h2
          exact hc.symm
      · exact hG g (List.mem_cons_of_mem _ h) x hx
    · rw [if_neg hc] at hg
      rcases List.mem_cons.mp hg with h | h
      · subst h
        exact hG (c, gr) (List.mem_cons_self ..) x hx
      · exact ih (fun g' hg' => hG g' (List.mem_cons_of_mem _ hg')) g h x hx

/-- Every group of `groupByColor` is homogeneous: all its balls carry the
group's key color. -/
theorem groupByColor_hom (balls : List Ball) :
    ∀ g ∈ groupByColor balls, ∀ x ∈ g.2, x.color = g.1 := by
  suffices h : ∀ acc, (∀ g ∈ acc, ∀ x ∈ g.2, x.color = g.1) →
      ∀ g ∈ balls.foldl (fun a b => insertGroup b a) acc, ∀ x ∈ g.2, x.color = g.1 by
    exact h [] (by simp)
  induction balls with
  | nil => intro acc h; simpa using h
  | cons b rest ih =>
    intro acc h
    simp only [List.foldl_cons]
    exact ih _ (insertGroup_hom b acc h)

/-- Inserting a ball adds exactly that ball to the flattened groups. -/
theorem insertGroup_flatMap (b : Ball) :
    ∀ G : List (ℕ × List Ball),
      ((insertGroup b G).flatMap Prod.snd).Perm (b :: G.flatMap Prod.snd) := by
  intro G
  induction G with
  | nil => simp [insertGroup]
  | cons p rest ih =>
    obtain ⟨c, gr⟩ := p
    simp only [insertGroup]
    by_cases hc : c = b.color
    · rw [if_pos hc]
      simp only [List.flatMap_cons]
      have he : (gr ++ [b]) ++ rest.flatMap Prod.snd =
          gr ++ (b :: rest.flatMap Prod.snd) := by simp
      rw [he]
      exact List.perm_middle
    · rw [if_neg hc]
      simp only [List.flatMap_cons]
      have h1 : (gr ++ (insertGroup b rest).flatMap Prod.snd).Perm
          (gr ++ (b :: rest.flatMap Prod.snd)) := List.Perm.append_left gr ih
      exact h1.trans List.perm_middle

/-- The color groups partition the ball list: flattening them gives back
the balls, up to order. -/
theorem groupByColor_perm (balls : List Ball) :
    balls.Perm ((groupByColor balls).flatMap Prod.snd) := by
  suffices h : ∀ acc : List (ℕ × List Ball),
      ((balls.foldl (fun a b => insertGroup b a) acc).flatMap Prod.snd).Perm
        (acc.flatMap Prod.snd ++ balls) by
    simpa [groupByColor] using (h []).symm
  induction balls with
  | nil => intro acc; simp
  | cons b rest ih =>
    intro acc
    simp only [List.foldl_cons]
    have h1 := ih (insertGroup b acc)
    have h2 : ((insertGroup b acc).flatMap Prod.snd ++ rest).Perm
        ((b :: acc.flatMap Prod.snd) ++ rest) :=
      (insertGroup_flatMap b acc).append_right rest
    exact h1.trans (h2.trans List.perm_middle.symm)

/-- Keys of the color map after an insertion. -/
theorem insertGroup_keys (b : Ball) :
    ∀ G : List (ℕ × List Ball),
      (insertGroup b G).map Prod.fst =
        if b.color ∈ G.map Prod.fst then G.map Prod.fst
        else G.map Prod.fst ++ [b.color] := by
  intro G
  induction G with
  | nil => simp [insertGroup]
  | cons p rest ih =>
    obtain ⟨c, gr⟩ := p
    simp only [insertGroup]
    by_cases hc : c = b.color
    · rw [if_pos hc]
      have hm : b.color ∈ (c, gr).1 :: rest.map Prod.fst := by
        rw [hc]; exact List.mem_cons_self ..
      simp only [List.map_cons] at hm ⊢
      rw [if_pos hm]
    · rw [if_neg hc]
      simp only [List.map_cons, ih]
      by_cases hm : b.color ∈ rest.map Prod.fst
      · rw [if_pos hm, if_pos (List.mem_cons_of_mem _ hm)]
      · rw [if_neg hm, if_neg ?_]
        · simp
        · intro hcon
          rcases List.mem_cons.mp hcon with h | h
          · exact hc h.symm
          · exact hm h

/-- The color map never holds two groups with the same key. -/
theorem groupByColor_keys_nodup (balls : List Ball) :
    ((groupByColor balls).map Prod.fst).Nodup := by
  suffices h : ∀ acc : List (ℕ × List Ball), (acc.map Prod.fst).Nodup →
      ((balls.foldl (fun a b => insertGroup b a) acc).map Prod.fst).Nodup by
    exact h [] (by simp)
  induction balls with
  | nil => intro acc h; simpa using h
  | cons b rest ih =>
    intro acc h
    simp only [List.foldl_cons]
    apply ih
    rw [insertGroup_keys]
    split_ifs with hm
    · exact h
    · simp only [List.nodup_append, List.nodup_cons, List.nodup_nil]
      exact ⟨h, by simp, by simpa using hm⟩

/-- Shape of the per-ball step on a qualifying hit: the parent shrinks and
gains the grace flag, and the child is the `mkChild` output. -/
theorem processBall_split_eq (cfg : Config) (rng : ℕ → ℚ) (k total : ℕ)
    (b p : Ball) (hX hY : Bool)
    (hmb : moveBounce cfg { b with justSplit := false } = (p, hX, hY))
    (hg : b.justSplit = false) (hhit : (hX || hY) = true)
    (hr : 1 ≤ p.radius * cfg.splitRatio) (hcap : total < cfg.maxBalls) :
    processBall cfg rng k total b =
      ({ p with radius := p.radius * cfg.splitRatio, justSplit := true },
        some (mkChild rng k hX hY
          { p with radius := p.radius * cfg.splitRatio, justSplit := true }).1,
        (mkChild rng k hX hY
          { p with radius := p.radius * cfg.splitRatio, justSplit := true }).2) := by
  simp only [processBall, hmb, hg]
  simp only [hhit, Bool.not_false, Bool.and_true, if_true]
  rw [if_pos ⟨hr, hcap⟩]

/-!
## Claim theorems
-/

/-- C1: for every sequence of ticks from the seeded initial state (with a
cap of at least 1, the validity condition the spec imposes on
construction), the population count is non-decreasing from tick to tick
and never exceeds `maxBalls`. -/
theorem population_monotone_and_capped (cfg : Config) (trace : ℕ → ℕ → ℚ)
    (hcap : 1 ≤ cfg.maxBalls) (t : ℕ) :
    getBallCount (run cfg trace t) ≤ getBallCount (run cfg trace (t + 1)) ∧
      getBallCount (run cfg trace t) ≤ cfg.maxBalls :=
  ⟨length_le_update cfg (trace t) (run cfg trace t), run_length_le cfg trace hcap t⟩

theorem population_monotone_and_capped_witness :
    1 ≤ cfgScenarioA.maxBalls ∧
      (getBallCount (run cfgScenarioA traceHalf 3) ≤
          getBallCount (run cfgScenarioA traceHalf 4) ∧
        getBallCount (run cfgScenarioA traceHalf 3) ≤ cfgScenarioA.maxBalls) :=
  ⟨by decide, population_monotone_and_capped cfgScenarioA traceHalf (by decide) 3⟩

/-- C2: if every particle's radius is at least 1 at the start of a tick,
then after the tick every particle's radius is still at least 1. -/
theorem radius_floor_preserved (cfg : Config) (rng : ℕ → ℚ) (s : List Ball)
    (hs : ∀ b ∈ s, 1 ≤ b.radius) : ∀ b ∈ update cfg rng s, 1 ≤ b.radius :=
  update_preserve cfg rng s (fun b => 1 ≤ b.radius)
    (fun k total b hb => processBall_radius_ge cfg rng k total b hb) hs

theorem radius_floor_preserved_witness :
    1 ≤ ((update cfgSmall rngHalf [ballHit]).getD 0 ballDefault).radius :=
  radius_floor_preserved cfgSmall rngHalf [ballHit] (by decide) _ (by decide)

/-- C3: the grace flag is cleared at the start of a particle's processing
and re-set exactly when that particle participates in a split decided in
the same tick; a particle carrying the flag at tick start initiates no
split that tick, so a particle that split (as parent) or was created (as
child) at tick `T` does not split at tick `T + 1`, whatever it hits
then. -/
theorem grace_flag_blocks_resplit (cfg : Config) (rng rng' : ℕ → ℚ)
    (k k' total total' : ℕ) (b : Ball) :
    ((processBall cfg rng k total b).2.1 = none →
        (processBall cfg rng k total b).1.justSplit = false) ∧
      (∀ c, (processBall cfg rng k total b).2.1 = some c →
        (processBall cfg rng k total b).1.justSplit = true ∧ c.justSplit = true) ∧
      (b.justSplit = true → (processBall cfg rng k total b).2.1 = none) ∧
      ∀ c, (processBall cfg rng k total b).2.1 = some c →
        (processBall cfg rng' k' total' (processBall cfg rng k total b).1).2.1 = none ∧
          (processBall cfg rng' k' total' c).2.1 = none := by
  refine ⟨processBall_none_flag cfg rng k total b,
    fun c hc => processBall_some_flag cfg rng k total b c hc,
    fun hb => processBall_grace cfg rng k total b hb,
    fun c hc => ?_⟩
  obtain ⟨h1, h2⟩ := processBall_some_flag cfg rng k total b c hc
  exact ⟨processBall_grace cfg rng' k' total' _ h1,
    processBall_grace cfg rng' k' total' c h2⟩

theorem grace_flag_blocks_resplit_witness :
    (processBall cfgSmall rngHalf 0 1 ballHit).1.justSplit = true ∧
      (processBall cfgSmall rngHalf 0 1
          (processBall cfgSmall rngHalf 0 1 ballHit).1).2.1 = none := by
  have h := grace_flag_blocks_resplit cfgSmall rngHalf rngHalf 0 0 1 1 ballHit
  have hs : (processBall cfgSmall rngHalf 0 1 ballHit).2.1.isSome = true := by decide
  obtain ⟨c, hc⟩ := Option.isSome_iff_exists.mp hs
  exact ⟨(h.2.1 c hc).1, (h.2.2.2 c hc).1⟩

/-- C4: on a qualifying wall hit with room under the cap, the parent
shrinks to `candidateRadius` and gains the grace flag, and exactly one
child is created at the parent's post-reflection position with the same
radius, the grace flag set, the parent's post-reflection velocity scaled
by a uniform factor in `[0.8, 1.2)`, and, per hit axis, a uniform jitter
in `[-1, 1)` added to the other axis's component. -/
theorem split_constructs_child (cfg : Config) (rng : ℕ → ℚ) (k total : ℕ)
    (b p : Ball) (hX hY : Bool)
    (hmb : moveBounce cfg { b with justSplit := false } = (p, hX, hY))
    (hg : b.justSplit = false) (hhit : (hX || hY) = true)
    (hr : 1 ≤ p.radius * cfg.splitRatio) (hcap : total < cfg.maxBalls)
    (hrng : ∀ n, 0 ≤ rng n ∧ rng n < 1) :
    ∃ c k2, processBall cfg rng k total b =
        ({ p with radius := p.radius * cfg.splitRatio, justSplit := true },
          some c, k2) ∧
      c.x = p.x ∧ c.y = p.y ∧ c.radius = p.radius * cfg.splitRatio ∧
      c.justSplit = true ∧
      ∃ f, 4/5 ≤ f ∧ f < 6/5 ∧
        (hX = true → ∃ j, -1 ≤ j ∧ j < 1 ∧ c.vy = p.vy * f + j) ∧
        (hX = false → c.vy = p.vy * f) ∧
        (hY = true → ∃ j, -1 ≤ j ∧ j < 1 ∧ c.vx = p.vx * f + j) ∧
        (hY = false → c.vx = p.vx * f) := by
  have hred := processBall_split_eq cfg rng k total b p hX hY hmb hg hhit hr hcap
  have hf1 : (4:ℚ)/5 ≤ 4/5 + rng k * (2/5) := by
    have h0 := (hrng k).1
    have : (0:ℚ) ≤ rng k * (2/5) := mul_nonneg h0 (by norm_num)
    linarith
  have hf2 : 4/5 + rng k * (2/5) < (6:ℚ)/5 := by
    have h1 := (hrng k).2
    have : rng k * (2/5) < 1 * (2/5) := by
      apply mul_lt_mul_of_pos_right h1
      norm_num
    linarith
  cases hX with
  | false =>
    cases hY with
    | false => simp at hhit
    | true =>
      refine ⟨_, _, hred, rfl, rfl, rfl, rfl,
        4/5 + rng k * (2/5), hf1, hf2, ?_, ?_, ?_, ?_⟩
      · intro h; exact nomatch h
      · intro _; rfl
      · intro _
        refine ⟨(rng (k+2) - 1/2) * 2, ?_, ?_, rfl⟩
        · have := (hrng (k+2)).1; linarith
        · have := (hrng (k+2)).2; linarith
      · intro h; exact nomatch h
  | true =>
    cases hY with
    | false =>
      refine ⟨_, _, hred, rfl, rfl, rfl, rfl,
        4/5 + rng k * (2/5), hf1, hf2, ?_, ?_, ?_, ?_⟩
      · intro _
        refine ⟨(rng (k+2) - 1/2) * 2, ?_, ?_, rfl⟩
        · have := (hrng (k+2)).1; linarith
        · have := (hrng (k+2)).2; linarith
      · intro h; exact nomatch h
      · intro h; exact nomatch h
      · intro _; rfl
    | true =>
      refine ⟨_, _, hred, rfl, rfl, rfl, rfl,
        4/5 + rng k * (2/5), hf1, hf2, ?_, ?_, ?_, ?_⟩
      · intro _
        refine ⟨(rng (k+2) - 1/2) * 2, ?_, ?_, rfl⟩
        · have := (hrng (k+2)).1; linarith
        · have := (hrng (k+2)).2; linarith
      · intro h; exact nomatch h
      · intro _
        refine ⟨(rng (k+3) - 1/2) * 2, ?_, ?_, rfl⟩
        · have := (hrng (k+3)).1; linarith
        · have := (hrng (k+3)).2; linarith
      · intro h; exact nomatch h

theorem split_constructs_child_witness :
    (processBall cfgSmall rngHalf 0 1 ballHit).2.1.isSome = true := by
  obtain ⟨c, k2, heq, hrest⟩ := split_constructs_child cfgSmall rngHalf 0 1
    ballHit ballHitPost true false (by decide) rfl rfl (by decide) (by decide)
    (fun n => ⟨by norm_num [rngHalf], by norm_num [rngHalf]⟩)
  rw [heq]
  rfl

/-- C5: a corner hit (both axes breached in one tick) by an eligible ball
with room under the cap makes exactly one split decision — the step's
child slot is a single `Option`, and it is filled once — and the child's
`vx` and `vy` are both jittered. -/
theorem corner_hit_single_split (cfg : Config) (rng : ℕ → ℚ) (k total : ℕ)
    (b p : Ball)
    (hmb : moveBounce cfg { b with justSplit := false } = (p, true, true))
    (hg : b.justSplit = false) (hr : 1 ≤ p.radius * cfg.splitRatio)
    (hcap : total < cfg.maxBalls) (hrng : ∀ n, 0 ≤ rng n ∧ rng n < 1) :
    ∃ c k2, processBall cfg rng k total b =
        ({ p with radius := p.radius * cfg.splitRatio, justSplit := true },
          some c, k2) ∧
      ∃ f jy jx, 4/5 ≤ f ∧ f < 6/5 ∧ -1 ≤ jy ∧ jy < 1 ∧ -1 ≤ jx ∧ jx < 1 ∧
        c.vy = p.vy * f + jy ∧ c.vx = p.vx * f + jx := by
  have hred := processBall_split_eq cfg rng k total b p true true hmb hg rfl hr hcap
  refine ⟨_, _, hred, 4/5 + rng k * (2/5),
    (rng (k+2) - 1/2) * 2, (rng (k+3) - 1/2) * 2, ?_, ?_, ?_, ?_, ?_, ?_, rfl, rfl⟩
  · have h0 := (hrng k).1
    have : (0:ℚ) ≤ rng k * (2/5) := mul_nonneg h0 (by norm_num)
    linarith
  · have h1 := (hrng k).2
    have : rng k * (2/5) < 1 * (2/5) := by
      apply mul_lt_mul_of_pos_right h1
      norm_num
    linarith
  · have := (hrng (k+2)).1; linarith
  · have := (hrng (k+2)).2; linarith
  · have := (hrng (k+3)).1; linarith
  · have := (hrng (k+3)).2; linarith

theorem corner_hit_single_split_witness :
    (processBall cfgSmall rngHalf 0 1 ballCorner).2.1.isSome = true := by
  obtain ⟨c, k2, heq, hrest⟩ := corner_hit_single_split cfgSmall rngHalf 0 1
    ballCorner ballCornerPost (by decide) rfl (by decide) (by decide)
    (fun n => ⟨by norm_num [rngHalf], by norm_num [rngHalf]⟩)
  rw [heq]
  rfl

/-- C6: a tick writes children only at indices at or beyond the tick-start
count `n` (the first `n` slots hold the processed pre-existing balls, so
slots are never shared), and every child is the child output of the
processing of some pre-existing ball — children are not themselves
processed within the call. -/
theorem children_appended_after_snapshot (cfg : Config) (rng : ℕ → ℚ)
    (s : List Ball) :
    s.length ≤ (update cfg rng s).length ∧
      (∀ i, i < s.length → ∃ k2 t2,
        (update cfg rng s).getD i ballDefault =
          (processBall cfg rng k2 t2 (s.getD i ballDefault)).1) ∧
      ∀ j, s.length ≤ j → j < (update cfg rng s).length →
        ∃ i k2 t2 c, i < s.length ∧
          (processBall cfg rng k2 t2 (s.getD i ballDefault)).2.1 = some c ∧
          (update cfg rng s).getD j ballDefault = c := by
  have hstruct := updateGo_struct cfg rng s.length s 0 0
  have hlen := updateGo_fst_length cfg rng s.length s 0 0
  have hupd : update cfg rng s =
      (updateGo cfg rng s.length s 0 0).1 ++ (updateGo cfg rng s.length s 0 0).2 := rfl
  refine ⟨length_le_update cfg rng s, ?_, ?_⟩
  · intro i hi
    obtain ⟨k2, t2, h⟩ := hstruct.1 i hi
    refine ⟨k2, t2, ?_⟩
    rw [hupd, List.getD_append _ _ _ _ (by rw [hlen]; exact hi)]
    exact h
  · intro j hj1 hj2
    have hjlen : j - s.length < (updateGo cfg rng s.length s 0 0).2.length := by
      rw [hupd, List.length_append, hlen] at hj2
      omega
    have hmem : (updateGo cfg rng s.length s 0 0).2.getD (j - s.length) ballDefault ∈
        (updateGo cfg rng s.length s 0 0).2 := by
      rw [List.getD_eq_getElem _ _ hjlen]
      exact List.getElem_mem ..
    obtain ⟨i, k2, t2, hi, hsome⟩ := hstruct.2 _ hmem
    refine ⟨i, k2, t2, _, hi, hsome, ?_⟩
    rw [hupd, List.getD_append_right _ _ _ _ (by rw [hlen]; exact hj1)]
    rw [hlen]

theorem children_appended_after_snapshot_witness :
    ∃ i k2 t2 c, i < [ballHit].length ∧
      (processBall cfgSmall rngHalf k2 t2 ([ballHit].getD i ballDefault)).2.1 =
        some c ∧
      (update cfgSmall rngHalf [ballHit]).getD 1 ballDefault = c :=
  (children_appended_after_snapshot cfgSmall rngHalf [ballHit]).2.2 1
    (by decide) (by decide)

/-- C7: in Scenario A (arena 800×600, cap 10, ratio 0.8, seed at center
with radius 60 and velocity (8, −6)) the population is 1 at every tick up
to 40 for every random trace; at tick 41 — the first wall impact — it
becomes 2 and every ball has radius 48; under the all-halves trace it
reaches the cap 10 (at tick 136) and from then on stays at 10 forever, so
later wall impacts never spawn. -/
theorem scenarioA_growth (trace : ℕ → ℕ → ℚ) :
    (∀ t, t ≤ 40 → getBallCount (run cfgScenarioA trace t) = 1) ∧
      getBallCount (run cfgScenarioA trace 41) = 2 ∧
      (∀ b ∈ run cfgScenarioA trace 41, b.radius = 48) ∧
      getBallCount (run cfgScenarioA traceHalf 136) = 10 ∧
      ∀ u, 136 ≤ u → getBallCount (run cfgScenarioA traceHalf u) = 10 := by
  have hmap : (run cfgScenarioA trace 41).map Ball.radius = [48, 48] := by
    have h40 := scenA_rng_eq trace 40 (by omega)
    have he : run cfgScenarioA trace 41 =
        update cfgScenarioA (trace 40) (run cfgScenarioA traceHalf 40) := by
      show update cfgScenarioA (trace 40) (run cfgScenarioA trace 40) = _
      rw [h40]
    rw [he, update_map_radius cfgScenarioA (trace 40) (traceHalf 40)
      (run cfgScenarioA traceHalf 40)]
    exact scenA_two
  refine ⟨?_, ?_, ?_, scenA_ten, ?_⟩
  · intro t ht
    show (run cfgScenarioA trace t).length = 1
    rw [scenA_rng_eq trace t ht]
    exact scenA_one t (by omega)
  · show (run cfgScenarioA trace 41).length = 2
    have := congrArg List.length hmap
    simpa using this
  · intro b hb
    have hmem : b.radius ∈ (run cfgScenarioA trace 41).map Ball.radius :=
      List.mem_map_of_mem _ hb
    rw [hmap] at hmem
    rcases List.mem_cons.mp hmem with h | h
    · exact h
    · simpa using h
  · intro u hu
    have := scenA_stay (u - 136)
    rw [show 136 + (u - 136) = u from by omega] at this
    exact this

theorem scenarioA_growth_witness :
    getBallCount (run cfgScenarioA traceHalf 3) = 1 ∧
      getBallCount (run cfgScenarioA traceHalf 41) = 2 ∧
      getBallCount (run cfgScenarioA traceHalf 137) = 10 :=
  ⟨(scenarioA_growth traceHalf).1 3 (by omega),
    (scenarioA_growth traceHalf).2.1,
    (scenarioA_growth traceHalf).2.2.2.2 137 (by omega)⟩

/-- C8 counterexample: `cfgInvalid` violates every validity condition the
spec requires construction to check (split ratio not strictly inside
(0,1), cap below 1), yet the constructor still produces a seeded backend —
construction does not fail. -/
theorem construction_validation_cex :
    ¬ (0 < cfgInvalid.splitRatio ∧ cfgInvalid.splitRatio < 1) ∧
      ¬ (1 ≤ cfgInvalid.maxBalls) ∧
      jsConstructor cfgInvalid = [initBall cfgInvalid] ∧
      getBallCount (jsConstructor cfgInvalid) = 1 := by
  refine ⟨?_, ?_, rfl, rfl⟩ <;> decide

/-- C8 (amended): construction performs no validation — for every
configuration the constructor succeeds and produces the backend seeded
with the single fixed ball. -/
theorem construction_never_fails (cfg : Config) :
    getBallCount (jsConstructor cfg) = 1 ∧
      ∀ b ∈ jsConstructor cfg, b.radius = 60 ∧ b.vx = 8 ∧ b.vy = -6 ∧
        b.justSplit = false := by
  refine ⟨rfl, ?_⟩
  intro b hb
  simp only [jsConstructor, initBalls, List.mem_singleton] at hb
  subst hb
  exact ⟨rfl, rfl, rfl, rfl⟩

/-- C9: the renderer picks its strategy by comparing the population with
10000.  Above the threshold it batches by color: the emitted commands are
the clear followed, per distinct color (no key repeats), by one fill-style
change and one bounding-square fill per ball of that color, the groups
being homogeneous and partitioning the ball list.  At or below the
threshold each ball is drawn as a filled circle of its own color at its
own position and radius. -/
theorem render_strategy_by_population (cfg : Config) (balls : List Ball) :
    (10000 < balls.length →
      render cfg balls =
        [DrawCmd.fillStyle 26 26 26, DrawCmd.fillRect 0 0 cfg.width cfg.height] ++
          fastCmds balls ∧
      (∀ g ∈ groupByColor balls, ∀ x ∈ g.2, x.color = g.1) ∧
      balls.Perm ((groupByColor balls).flatMap Prod.snd) ∧
      ((groupByColor balls).map Prod.fst).Nodup) ∧
    (balls.length ≤ 10000 →
      render cfg balls =
        [DrawCmd.fillStyle 26 26 26, DrawCmd.fillRect 0 0 cfg.width cfg.height] ++
          balls.flatMap fun b =>
            [styleOf b.color, DrawCmd.fillCircle b.x b.y b.radius]) := by
  constructor
  · intro h
    refine ⟨?_, groupByColor_hom balls, groupByColor_perm balls,
      groupByColor_keys_nodup balls⟩
    simp only [render, if_pos (show balls.length > 10000 from h)]
  · intro h
    show _ ++ _ = _
    rw [if_neg (by omega)]
    rfl

theorem render_strategy_by_population_witness :
    10000 < ballsBig.length ∧
      render cfgSmall ballsBig =
        [DrawCmd.fillStyle 26 26 26,
          DrawCmd.fillRect 0 0 cfgSmall.width cfgSmall.height] ++
          fastCmds ballsBig ∧
      [ballHit].length ≤ 10000 ∧
      render cfgSmall [ballHit] =
        [DrawCmd.fillStyle 26 26 26,
          DrawCmd.fillRect 0 0 cfgSmall.width cfgSmall.height] ++
          [ballHit].flatMap fun b =>
            [styleOf b.color, DrawCmd.fillCircle b.x b.y b.radius] := by
  have hlen : ballsBig.length = 10001 := List.length_replicate ..
  exact ⟨by omega,
    ((render_strategy_by_population cfgSmall ballsBig).1 (by omega)).1,
    by norm_num,
    (render_strategy_by_population cfgSmall [ballHit]).2 (by norm_num)⟩

/-- C10 counterexample: containment at tick start alone is not preserved.
First input: a contained ball of radius 1/2 hits the left wall; the
radius floor clamps its radius up to 1, pushing its disc outside the
arena.  Second input: with split ratio 2 a contained ball splits on the
wall and its radius grows past its wall distance. -/
theorem containment_cex :
    ((∀ b ∈ [ballCtr], inArena cfgCtr b) ∧
      ¬ ∀ b ∈ update cfgCtr rngHalf [ballCtr], inArena cfgCtr b) ∧
      (∀ b ∈ [ballCtr2], inArena cfgCtr2 b) ∧
      ¬ ∀ b ∈ update cfgCtr2 rngHalf [ballCtr2], inArena cfgCtr2 b := by
  refine ⟨⟨?_, ?_⟩, ?_, ?_⟩ <;> decide

/-- C10 (amended): if at tick start every particle lies within the arena
and has radius at least 1, and the split ratio is at most 1, then after
the tick every particle — children included — again lies within the arena
(with radius still at least 1). -/
theorem containment_preserved (cfg : Config) (rng : ℕ → ℚ) (s : List Ball)
    (hratio : cfg.splitRatio ≤ 1)
    (hs : ∀ b ∈ s, inArena cfg b ∧ 1 ≤ b.radius) :
    ∀ b ∈ update cfg rng s, inArena cfg b ∧ 1 ≤ b.radius :=
  update_preserve cfg rng s (fun b => inArena cfg b ∧ 1 ≤ b.radius)
    (fun k total b hb => processBall_inArena cfg rng k total b hratio hb) hs

theorem containment_preserved_witness :
    inArena cfgCtr ((update cfgCtr rngHalf [ballContained]).getD 0 ballDefault) ∧
      1 ≤ ((update cfgCtr rngHalf [ballContained]).getD 0 ballDefault).radius :=
  containment_preserved cfgCtr rngHalf [ballContained] (by decide) (by decide)
    _ (by decide)
